import Mathlib

/-!
Verification of the Translation Bridge v4 core transform engine
(`src/translation_bridge/transforms/core.py`).

The Python engine works on JSON-like data: nested dicts (insertion-ordered,
string-keyed), lists, strings, ints, bools and None.  We embed these values
as a mutual inductive family `J` / `JArr` / `JObj`, where `JObj` is an
insertion-ordered association list exactly like a Python dict (a well-formed
dict never repeats a key; that is tracked separately by `wfJ`).

Numbers are embedded as `Int`; the engine never computes with numeric
values, so float/int distinctions are irrelevant here.  Recursive traversals
of the engine (`classify_zones`, `extract_content`, `transform`) are embedded
with an explicit `fuel : Nat` bound on recursion depth, since the Python
recursion is unbounded (and, for `transform`, genuinely non-terminating for
adversarial transformer functions); every theorem either holds for all fuel
values or quantifies over a sufficient fuel.
-/

mutual

inductive J where
  | null
  | bool (b : Bool)
  | num (n : Int)
  | str (s : String)
  | arr (items : JArr)
  | obj (fields : JObj)
  deriving DecidableEq, Repr

inductive JArr where
  | nil
  | cons (head : J) (tail : JArr)
  deriving DecidableEq, Repr

inductive JObj where
  | nil
  | cons (key : String) (val : J) (tail : JObj)
  deriving DecidableEq, Repr

end

namespace JArr

/-- Convert an embedded JSON list to a Lean list of values. -/
def toList : JArr → List J
  | .nil => []
  | .cons h t => h :: toList t

/-- Build an embedded JSON list from a Lean list of values. -/
def ofList : List J → JArr
  | [] => .nil
  | h :: t => .cons h (ofList t)

end JArr

namespace JObj

/-- The keys of a dict, in insertion order. -/
def keys : JObj → List String
  | .nil => []
  | .cons k _ t => k :: keys t

/-- Python `d[k]` / `d.get(k)`: the value at the first occurrence of `k`. -/
def lookup : JObj → String → Option J
  | .nil, _ => none
  | .cons k v t, q => if k == q then some v else lookup t q

/-- Python `k in d`. -/
def hasKey (o : JObj) (q : String) : Bool :=
  (lookup o q).isSome

/-- Python `d[k] = v`: replace the value at an existing key in place
(keeping insertion order), or append a fresh key at the end. -/
def set : JObj → String → J → JObj
  | .nil, q, v => .cons q v .nil
  | .cons k w t, q, v => if k == q then .cons k v t else .cons k w (set t q v)

/-- Python truthiness of a dict: empty test. -/
def isEmpty : JObj → Bool
  | .nil => true
  | .cons _ _ _ => false

/-- Number of entries. -/
def length : JObj → Nat
  | .nil => 0
  | .cons _ _ t => 1 + length t

/-- No key occurs twice (always true of a real Python dict). -/
def distinctKeys : JObj → Bool
  | .nil => true
  | .cons k _ t => !(hasKey t k) && distinctKeys t

/-- `memEntry k v o`: the pair `(k, v)` is one of the entries of `o`. -/
def memEntry (k : String) (v : J) : JObj → Prop
  | .nil => False
  | .cons k' v' t => (k' = k ∧ v' = v) ∨ memEntry k v t

instance (k : String) (v : J) : (o : JObj) → Decidable (memEntry k v o)
  | .nil => isFalse (fun h => h)
  | .cons k' v' t =>
      @instDecidableOr _ _ (instDecidableAnd) (instDecidableMemEntry k v t)

end JObj

mutual

/-- Python value equality (`==` / `!=`) restricted to JSON-like values:
lists compare pointwise, dicts compare as unordered key-value maps.
(The int/bool numeric coercions of Python `==` are not modelled; the engine
never compares values of different runtime types.) -/
def pyEq : J → J → Bool
  | .null, .null => true
  | .bool a, .bool b => a == b
  | .num a, .num b => a == b
  | .str a, .str b => a == b
  | .arr a, .arr b => pyEqArr a b
  | .obj a, .obj b => a.length == b.length && pyEqSub a b
  | _, _ => false

def pyEqArr : JArr → JArr → Bool
  | .nil, .nil => true
  | .cons x xs, .cons y ys => pyEq x y && pyEqArr xs ys
  | _, _ => false

def pyEqSub : JObj → JObj → Bool
  | .nil, _ => true
  | .cons k v t, ys =>
      (match ys.lookup k with
       | some w => pyEq v w
       | none => false) && pyEqSub t ys

end

mutual

/-- Well-formedness of an embedded value: every dict in it has pairwise
distinct keys (true of every value obtained from real Python data). -/
def wfJ : J → Bool
  | .null => true
  | .bool _ => true
  | .num _ => true
  | .str _ => true
  | .arr a => wfArr a
  | .obj o => o.distinctKeys && wfObj o

def wfArr : JArr → Bool
  | .nil => true
  | .cons h t => wfJ h && wfArr t

def wfObj : JObj → Bool
  | .nil => true
  | .cons _ v t => wfJ v && wfObj t

end

/-- Python `pat in s` for strings, on character lists: `pat` occurs as a
contiguous run of `s`. -/
def startsWithSeq : List Char → List Char → Bool
  | [], _ => true
  | _ :: _, [] => false
  | p :: ps, c :: cs => p == c && startsWithSeq ps cs

/-- Python substring test `pat in s` (on `String`s). -/
def containsSeq (s pat : String) : Bool :=
  go pat.toList s.toList
where
  go (pat : List Char) : List Char → Bool
    | [] => pat.isEmpty
    | c :: cs => startsWithSeq pat (c :: cs) || go pat cs

/-- Python `key.lower()` for the ASCII keys the engine handles. -/
def lowerKey (s : String) : List Char :=
  s.toList.map Char.toLower

/-- Python `value.strip()` is truthy exactly when the string has some
non-whitespace character. -/
def hasNonSpace (s : String) : Bool :=
  s.toList.any (fun c =>
    !(c.toNat == 32 || c.toNat == 9 || c.toNat == 10
      || c.toNat == 13 || c.toNat == 11 || c.toNat == 12))

/-- `ZoneType` from `core.py`: classification of element zones. -/
inductive ZoneType where
  | structural
  | content
  | styling
  | behavioral
  | meta
  deriving DecidableEq, Repr

/-- `Zone` from `core.py`: a classified region of an element.  `data` is a
sub-dict of the element's entries, `original_keys` the keys assigned to the
zone. -/
structure Zone where
  zone_type : ZoneType
  path : String
  data : JObj
  original_keys : List String
  deriving DecidableEq, Repr

/-- `TransformEngine.STRUCTURAL_KEYS` (the only class-level key set the
classifier consults; the other class-level sets are dead in `classify_zones`,
which uses the inline keyword lists below). -/
def STRUCTURAL_KEYS : List String :=
  ["elType", "widgetType", "elements", "isInner",
   "id", "_id", "columns", "rows", "section", "column"]

/-- Inline content keyword list of `classify_zones` (rule 2). -/
def contentKeywords : List String :=
  ["text", "title", "content", "description", "heading", "editor", "caption", "label"]

/-- Inline styling keyword list of `classify_zones` (rule 3). -/
def stylingKeywords : List String :=
  ["color", "background", "margin", "padding", "border", "font", "size", "typography"]

/-- Inline behavioral keyword list of `classify_zones` (rule 4). -/
def behavioralKeywords : List String :=
  ["animation", "motion", "hover", "scroll", "trigger"]

/-- The per-key rule chain of `classify_zones`, first match wins:
structural key set, then content / styling / behavioral keyword substring
tests on the lowercased key, else meta. -/
def classifyKey (key : String) : ZoneType :=
  let kl := lowerKey key
  if STRUCTURAL_KEYS.contains key || key == "elements" then .structural
  else if contentKeywords.any (fun ck => startsOrRun kl ck) then .content
  else if stylingKeywords.any (fun sk => startsOrRun kl sk) then .styling
  else if behavioralKeywords.any (fun bk => startsOrRun kl bk) then .behavioral
  else .meta
where
  /-- Python `kw in key_lower` with the key already lowercased. -/
  startsOrRun (kl : List Char) (kw : String) : Bool :=
    containsSeq.go kw.toList kl

/-- The sub-dict of entries of `fields` whose key classifies to `t`,
in insertion order (the bucket dicts built by the classification loop). -/
def zoneBucket : JObj → ZoneType → JObj
  | .nil, _ => .nil
  | .cons k v t, zt =>
      if classifyKey k == zt then .cons k v (zoneBucket t zt)
      else zoneBucket t zt

/-- `path or "root"`: the path recorded on a node's own zones. -/
def zonePath (path : String) : String :=
  if path == "" then "root" else path

/-- Path of the `i`-th child: `elements[i]`, dot-joined to a nonempty
current path. -/
def childPath (path : String) (i : Nat) : String :=
  (if path == "" then "" else path ++ ".") ++ "elements[" ++ toString i ++ "]"

/-- Path of the nested settings map. -/
def settingsPath (path : String) : String :=
  if path == "" then "settings" else path ++ ".settings"

/-- The zones `classify_zones` emits for the element's own entries: one zone
per non-empty bucket, in the fixed order structural, content, styling,
behavioral, meta. -/
def ownZones (fields : JObj) (path : String) : List Zone :=
  let structural_data := zoneBucket fields .structural
  let content_data := zoneBucket fields .content
  let styling_data := zoneBucket fields .styling
  let behavioral_data := zoneBucket fields .behavioral
  let meta_data := zoneBucket fields .meta
  (if structural_data.isEmpty then []
   else [⟨.structural, zonePath path, structural_data, structural_data.keys⟩])
  ++ (if content_data.isEmpty then []
      else [⟨.content, zonePath path, content_data, content_data.keys⟩])
  ++ (if styling_data.isEmpty then []
      else [⟨.styling, zonePath path, styling_data, styling_data.keys⟩])
  ++ (if behavioral_data.isEmpty then []
      else [⟨.behavioral, zonePath path, behavioral_data, behavioral_data.keys⟩])
  ++ (if meta_data.isEmpty then []
      else [⟨.meta, zonePath path, meta_data, meta_data.keys⟩])

/-- `TransformEngine.classify_zones`: a non-dict yields no zones; a dict
yields its own zones followed by the zones of each entry of a list under
the `elements` key, followed by the zones of a dict under the `settings`
key.  `fuel` bounds the recursion depth (the Python recursion is unbounded
but terminates on finite data; any `fuel` larger than the nesting depth
agrees with it). -/
def classify_zones : Nat → J → String → List Zone
  | 0, _, _ => []
  | fuel + 1, element, path =>
    match element with
    | .obj fields =>
      let zones := ownZones fields path
      let childZones :=
        match fields.lookup "elements" with
        | some (.arr children) =>
            (children.toList.enum.map
              (fun ic => classify_zones fuel ic.2 (childPath path ic.1))).flatten
        | _ => []
      let settingsZones :=
        match fields.lookup "settings" with
        | some (.obj s) => classify_zones fuel (.obj s) (settingsPath path)
        | _ => []
      zones ++ childZones ++ settingsZones
    | _ => []

/-- `ContentItem`: the dict appended by `extract_content` for each extracted
value (`path`, `key`, `value`, `element_type`). -/
structure ContentItem where
  path : String
  key : String
  value : String
  element_type : J
  deriving DecidableEq, Repr

/-- Inline content keyword list of `extract_content` (note: shorter than
the classifier's rule-2 list — no `caption`, no `label`). -/
def extractKeywords : List String :=
  ["text", "title", "content", "description", "heading", "editor"]

/-- The emission test of `extract_content`:
`value and isinstance(value, str) and value.strip()`. -/
def extractableValue : J → Bool
  | .str s => !(s == "") && hasNonSpace s
  | _ => false

/-- `element.get("elType", element.get("widgetType", "unknown"))`. -/
def elementTypeOf (fields : JObj) : J :=
  match fields.lookup "elType" with
  | some v => v
  | none =>
    match fields.lookup "widgetType" with
    | some v => v
    | none => .str "unknown"

/-- The settings scan of `extract_recursive`: one `ContentItem` per settings
entry whose key matches `extractKeywords` and whose value is a non-empty,
non-whitespace string. -/
def scanSettings (fields : JObj) (path : String) : JObj → List ContentItem
  | .nil => []
  | .cons k v t =>
    (if extractKeywords.any (fun ck => containsSeq.go ck.toList (lowerKey k)) then
      (if extractableValue v then
        (match v with
         | .str s =>
            [⟨(if path == "" then "settings." ++ k else path ++ ".settings." ++ k),
              k, s, elementTypeOf fields⟩]
         | _ => [])
       else [])
     else []) ++ scanSettings fields path t

/-- `extract_recursive` inside `TransformEngine.extract_content`: scan the
node's `settings` dict, then recurse into the `elements` list; a bare list
recurses into its items under indexed paths; all other values yield
nothing.  `fuel` bounds recursion depth as in `classify_zones`. -/
def extract_recursive : Nat → J → String → List ContentItem
  | 0, _, _ => []
  | fuel + 1, element, path =>
    match element with
    | .obj fields =>
      let settingsItems :=
        match fields.lookup "settings" with
        | some (.obj s) => scanSettings fields path s
        | _ => []
      let childItems :=
        match fields.lookup "elements" with
        | some (.arr children) =>
            (children.toList.enum.map
              (fun ic => extract_recursive fuel ic.2 (childPath path ic.1))).flatten
        | _ => []
      settingsItems ++ childItems
    | .arr items =>
      (items.toList.enum.map
        (fun ic => extract_recursive fuel ic.2
          ((if path == "" then "" else path) ++ "[" ++ toString ic.1 ++ "]"))).flatten
    | _ => []

/-- `TransformEngine.extract_content`: a top-level list is walked item by
item under `[i]` paths, anything else is walked from an empty path. -/
def extract_content (fuel : Nat) (data : J) : List ContentItem :=
  match data with
  | .arr items =>
    (items.toList.enum.map
      (fun ic => extract_recursive fuel ic.2 ("[" ++ toString ic.1 ++ "]"))).flatten
  | _ => extract_recursive fuel data ""

/-- `TransformResult` from `core.py`.  `metadata_preserved` is the constant
float `100.0`, embedded as the natural number `100`; `errors` is the list of
appended error values (the source appends formatted strings). -/
structure TransformResult where
  success : Bool
  data : J
  zones_modified : List String
  metadata_preserved : Nat
  errors : List J
  deriving DecidableEq, Repr

/-- The zone filter of `transform`:
`zone_types is None or zone.zone_type in zone_types`. -/
def zoneMatches (zone_types : Option (List ZoneType)) (z : Zone) : Bool :=
  match zone_types with
  | none => true
  | some ts => ts.contains z.zone_type

/-- One step of the write-back loop of `transform`:
`if key in element: element[key] = value
 elif "settings" in element and key in element["settings"]: element["settings"][key] = value`.
When the `settings` value is not a dict, the Python membership test
`key in element["settings"]` (or, for strings and lists, the subsequent
indexed assignment) raises a `TypeError`; the raise is modelled as
`Except.error` carrying the Python exception message, to be caught by the
surrounding per-zone handler. -/
def writeBackKey (element : JObj) (k : String) (v : J) : Except String JObj :=
  if element.hasKey k then .ok (element.set k v)
  else
    match element.lookup "settings" with
    | some (.obj s) =>
        if s.hasKey k then .ok (element.set "settings" (.obj (s.set k v)))
        else .ok element
    | some (.str s) =>
        if containsSeq s k then
          .error "'str' object does not support item assignment"
        else .ok element
    | some (.arr items) =>
        if items.toList.any (fun it => pyEq (.str k) it) then
          .error "list indices must be integers or slices, not str"
        else .ok element
    | some (.num n) => .error "argument of type 'int' is not iterable"
    | some (.bool b) => .error "argument of type 'bool' is not iterable"
    | some .null => .error "argument of type 'NoneType' is not iterable"
    | none => .ok element

/-- The whole write-back loop, over the transformed zone's entries in
insertion order: a raised `TypeError` aborts the loop, keeping the writes
already made in place (the source mutates the element), and reports the
exception message. -/
def writeBackAll (element : JObj) : JObj → JObj × Option String
  | .nil => (element, none)
  | .cons k v t =>
    match writeBackKey element k v with
    | .ok el' => writeBackAll el' t
    | .error msg => (element, some msg)

/-- The error string appended when an exception is caught in the per-zone
loop: `f"Error transforming zone at {zone.path}: {str(e)}"`. -/
def errorEntry (path msg : String) : J :=
  .str ("Error transforming zone at " ++ path ++ ": " ++ msg)

/-- The per-zone loop of `process_element`: apply the transformer to each
matching zone; on success with value-different data, record the zone path
and write the returned entries back; on a raised exception — from the
transformer or from the write-back itself — record the error entry and
continue with the remaining zones. -/
def applyZones (transformer : Zone → Except String Zone)
    (zone_types : Option (List ZoneType)) :
    List Zone → JObj → List String → List J → JObj × List String × List J
  | [], element, mods, errs => (element, mods, errs)
  | z :: rest, element, mods, errs =>
    if zoneMatches zone_types z then
      match transformer z with
      | .ok tz =>
        if !(pyEq (.obj tz.data) (.obj z.data)) then
          match writeBackAll element tz.data with
          | (el', none) =>
              applyZones transformer zone_types rest el'
                (mods ++ [z.path]) errs
          | (el', some msg) =>
              applyZones transformer zone_types rest el'
                (mods ++ [z.path]) (errs ++ [errorEntry z.path msg])
        else
          applyZones transformer zone_types rest element mods errs
      | .error msg =>
        applyZones transformer zone_types rest element mods
          (errs ++ [errorEntry z.path msg])
    else
      applyZones transformer zone_types rest element mods errs

/-- `process_element` inside `TransformEngine.transform`: classify the
element (own and descendant zones), run the per-zone loop, then rebuild the
`elements` list by recursing into each child.  The accumulators are the
shared `zones_modified` and `errors` lists, threaded in traversal order.
`fuel` bounds recursion depth; unlike classification, the Python recursion
here can be made non-terminating by a transformer that keeps growing the
`elements` list, so the bound is essential. -/
def process_element (transformer : Zone → Except String Zone)
    (zone_types : Option (List ZoneType)) :
    Nat → J → String → List String × List J → J × (List String × List J)
  | 0, element, _, acc => (element, acc)
  | fuel + 1, element, path, acc =>
    match element with
    | .obj fields =>
      let zones := classify_zones (fuel + 1) (.obj fields) path
      let r := applyZones transformer zone_types zones fields acc.1 acc.2
      match (r.1).lookup "elements" with
      | some (.arr children) =>
        let step := fun (st : List J × (List String × List J)) (ic : Nat × J) =>
          let pr := process_element transformer zone_types fuel ic.2
            (childPath path ic.1) st.2
          (st.1 ++ [pr.1], pr.2)
        let res := children.toList.enum.foldl step ([], (r.2.1, r.2.2))
        (.obj ((r.1).set "elements" (.arr (JArr.ofList res.1))), res.2)
      | _ => (.obj r.1, (r.2.1, r.2.2))
    | other => (other, acc)

/-- `TransformEngine.transform`.  With no transformer the input is returned
unchanged with `success=True` and `metadata_preserved=100`; otherwise a
top-level list is processed item by item under `[i]` paths, a top-level dict
from the empty path, and anything else is left untouched. -/
def transform (fuel : Nat) (data : J) (zone_types : Option (List ZoneType))
    (transformer : Option (Zone → Except String Zone)) : TransformResult :=
  match transformer with
  | none =>
    { success := true, data := data, zones_modified := [],
      metadata_preserved := 100, errors := [] }
  | some f =>
    let r : J × (List String × List J) :=
      match data with
      | .arr items =>
        let step := fun (st : List J × (List String × List J)) (ic : Nat × J) =>
          let pr := process_element f zone_types fuel ic.2
            ("[" ++ toString ic.1 ++ "]") st.2
          (st.1 ++ [pr.1], pr.2)
        let res := items.toList.enum.foldl step ([], ([], []))
        (.arr (JArr.ofList res.1), res.2)
      | .obj fields => process_element f zone_types fuel (.obj fields) "" ([], [])
      | other => (other, ([], []))
    { success := (r.2.2).isEmpty, data := r.1, zones_modified := r.2.1,
      metadata_preserved := 100, errors := r.2.2 }

/-! Concrete data and transformer functions used by the verification
scenarios below. -/

/-- The classification example map
`{ title: "Hi", background_color: "#fff", animation: "fade" }`. -/
def exampleMap : JObj :=
  .cons "title" (.str "Hi")
    (.cons "background_color" (.str "#fff")
      (.cons "animation" (.str "fade") .nil))

/-- A settings map containing only the compound key `title_color`. -/
def titleColorMap : JObj :=
  .cons "title_color" (.str "#f00") .nil

/-- A widget with an `id` and a `settings.title` value. -/
def widgetTitled (t : String) : J :=
  .obj (.cons "id" (.str "w")
    (.cons "settings" (.obj (.cons "title" (.str t) .nil)) .nil))

/-- The 3-sibling-widget tree of the error-isolation scenario. -/
def isolationTree : J :=
  .arr (.cons (widgetTitled "one")
    (.cons (widgetTitled "two") (.cons (widgetTitled "three") .nil)))

/-- Transformer of the error-isolation scenario: raise on widget 2's
content zone, retitle every other content zone, leave the rest alone. -/
def isolationFn : Zone → Except String Zone := fun z =>
  if z.zone_type == ZoneType.content then
    (if z.path == "[1].settings" then .error "boom"
     else .ok ⟨z.zone_type, z.path, z.data.set "title" (.str "CHANGED"),
               z.original_keys⟩)
  else .ok z

/-- Expected result tree of the error-isolation scenario: widgets 1 and 3
retitled, widget 2 untouched. -/
def isolationExpected : J :=
  .arr (.cons
    (.obj (.cons "id" (.str "w")
      (.cons "settings" (.obj (.cons "title" (.str "CHANGED") .nil)) .nil)))
    (.cons (widgetTitled "two")
      (.cons (.obj (.cons "id" (.str "w")
        (.cons "settings" (.obj (.cons "title" (.str "CHANGED") .nil)) .nil)))
        .nil)))

/-- A one-node tree whose only key is unclassifiable (`foo` is a meta key). -/
def fooTree : J := .arr (.cons (.obj (.cons "foo" J.null .nil)) .nil)

/-- Transformer returning a zone whose data holds only a fresh key `bar`,
absent from the node and from any settings map. -/
def freshKeyFn : Zone → Except String Zone := fun z =>
  .ok ⟨z.zone_type, z.path, .cons "bar" (.num 2) .nil, z.original_keys⟩

/-- A node whose settings map is `{a: 1}`. -/
def settingsATree : J :=
  .obj (.cons "settings" (.obj (.cons "a" (.num 1) .nil)) .nil)

/-- Transformer replacing the whole `settings` value with `{b: 2}` in every
zone it receives. -/
def replaceSettingsFn : Zone → Except String Zone := fun z =>
  .ok ⟨z.zone_type, z.path,
       .cons "settings" (.obj (.cons "b" (.num 2) .nil)) .nil,
       z.original_keys⟩

/-- A leaf widget `{title: "Hi"}`. -/
def titledLeaf : J := .obj (.cons "title" (.str "Hi") .nil)

/-- A root holding the leaf one level down. -/
def nestedDepth1 : J :=
  .obj (.cons "elements" (.arr (.cons titledLeaf .nil)) .nil)

/-- A root holding the leaf two levels down. -/
def nestedDepth2 : J :=
  .obj (.cons "elements"
    (.arr (.cons (.obj (.cons "elements" (.arr (.cons titledLeaf .nil)) .nil)) .nil))
    .nil)

/-- Transformer retitling content zones and leaving all others alone. -/
def retitleFn : Zone → Except String Zone := fun z =>
  if z.zone_type == ZoneType.content then
    .ok ⟨z.zone_type, z.path, z.data.set "title" (.str "HI"), z.original_keys⟩
  else .ok z

/-- Transformer raising on content zones and leaving all others alone. -/
def raiseOnContentFn : Zone → Except String Zone := fun z =>
  if z.zone_type == ZoneType.content then .error "boom" else .ok z

/-- A one-key node used to exercise the error path at the root. -/
def fooNode : J := .obj (.cons "foo" J.null .nil)

/-- Transformer that raises on every zone. -/
def alwaysRaiseFn : Zone → Except String Zone := fun _ => .error "boom"

/-- A node whose settings are `{caption: "Hi"}` (classifier rule 2 matches
`caption`; the extractor's shorter list does not). -/
def captionNode : J :=
  .obj (.cons "settings" (.obj (.cons "caption" (.str "Hi") .nil)) .nil)

/-- A node whose settings are `{caption: v}` for an arbitrary value. -/
def captionNodeOf (v : J) : J :=
  .obj (.cons "settings" (.obj (.cons "caption" v .nil)) .nil)

/-- The two-widget extraction example: `{settings:{title:"Welcome"}}` and
`{settings:{title:""}}`. -/
def welcomeTree : J :=
  .arr (.cons (.obj (.cons "settings" (.obj (.cons "title" (.str "Welcome") .nil)) .nil))
    (.cons (.obj (.cons "settings" (.obj (.cons "title" (.str "") .nil)) .nil)) .nil))

/-- Replace a raised exception by the identity outcome on the zone: the
reference run against which failure isolation is measured. -/
def onErrorKeep (f : Zone → Except String Zone) : Zone → Except String Zone :=
  fun z =>
    match f z with
    | .ok z' => .ok z'
    | .error _ => .ok z

/-- Every recorded modification path is the path of some zone for which
the transformer returned value-different data. -/
def modsProp (f : Zone → Except String Zone) (δm : List String) : Prop :=
  ∀ p ∈ δm, ∃ z tz, f z = .ok tz
    ∧ pyEq (.obj tz.data) (.obj z.data) = false ∧ z.path = p

/-- Every recorded error is the formatted error string of some zone,
arising either from a transformer raise or from a write-back `TypeError`
after the transformer returned value-different data. -/
def errsProp (f : Zone → Except String Zone) (δe : List J) : Prop :=
  ∀ x ∈ δe, ∃ z msg, x = errorEntry z.path msg ∧
    (f z = .error msg ∨
      ∃ tz el, f z = .ok tz ∧ pyEq (.obj tz.data) (.obj z.data) = false
        ∧ (writeBackAll el tz.data).2 = some msg)

/-! Helper lemmas about classification. -/

/-- The keys of a bucket are the filtered keys of the element. -/
theorem keys_zoneBucket : (fields : JObj) → (t : ZoneType) →
    (zoneBucket fields t).keys = fields.keys.filter (fun k => classifyKey k == t)
  | .nil, _ => rfl
  | .cons k v tl, zt => by
    by_cases h : classifyKey k == zt <;>
      simp [zoneBucket, JObj.keys, h, keys_zoneBucket tl zt]

/-- An empty dict has no keys. -/
theorem keys_eq_nil_of_isEmpty {o : JObj} (h : o.isEmpty = true) : o.keys = [] := by
  cases o with
  | nil => rfl
  | cons k v t => simp [JObj.isEmpty] at h

/-- Pulling an element of the second list over the first preserves
permutation. -/
theorem perm_pull {α} (A : List α) {B : List α} {a : α} {C : List α}
    (h : B.Perm (a :: C)) : (A ++ B).Perm (a :: (A ++ C)) :=
  (h.append_left A).trans List.perm_middle

/-- The five classification buckets partition the key list: their
concatenation is a permutation of it. -/
theorem classifyKey_filter_perm (l : List String) :
    ((l.filter fun k => classifyKey k == ZoneType.structural)
      ++ ((l.filter fun k => classifyKey k == ZoneType.content)
      ++ ((l.filter fun k => classifyKey k == ZoneType.styling)
      ++ ((l.filter fun k => classifyKey k == ZoneType.behavioral)
      ++ (l.filter fun k => classifyKey k == ZoneType.meta))))).Perm l := by
  induction l with
  | nil => simp
  | cons k tl ih =>
    cases hc : classifyKey k with
    | structural =>
      simp only [List.filter_cons, hc]
      simp only [reduceCtorEq, beq_iff_eq, if_true, if_false, reduceIte, List.cons_append]
      exact ih.cons k
    | content =>
      simp only [List.filter_cons, hc]
      simp only [reduceCtorEq, beq_iff_eq, if_true, if_false, reduceIte, List.cons_append]
      exact (perm_pull (List.filter _ tl) (List.Perm.refl _)).trans (ih.cons k)
    | styling =>
      simp only [List.filter_cons, hc]
      simp only [reduceCtorEq, beq_iff_eq, if_true, if_false, reduceIte, List.cons_append]
      exact (perm_pull (List.filter _ tl) (perm_pull (List.filter _ tl)
        (List.Perm.refl _))).trans (ih.cons k)
    | behavioral =>
      simp only [List.filter_cons, hc]
      simp only [reduceCtorEq, beq_iff_eq, if_true, if_false, reduceIte, List.cons_append]
      exact (perm_pull (List.filter _ tl) (perm_pull (List.filter _ tl)
        (perm_pull (List.filter _ tl) (List.Perm.refl _)))).trans (ih.cons k)
    | meta =>
      simp only [List.filter_cons, hc]
      simp only [reduceCtorEq, beq_iff_eq, if_true, if_false, reduceIte, List.cons_append]
      exact (perm_pull (List.filter _ tl) (perm_pull (List.filter _ tl)
        (perm_pull (List.filter _ tl) (perm_pull (List.filter _ tl)
          (List.Perm.refl _))))).trans (ih.cons k)

/-- Unfolding of `classify_zones` on a dict with positive fuel: own zones
first, then child zones, then nested-settings zones. -/
theorem classify_zones_succ (fuel : Nat) (fields : JObj) (path : String) :
    classify_zones (fuel + 1) (.obj fields) path
      = ownZones fields path
        ++ (((match fields.lookup "elements" with
             | some (.arr children) =>
                 (children.toList.enum.map
                   (fun ic => classify_zones fuel ic.2 (childPath path ic.1))).flatten
             | _ => ([] : List Zone))
        ++ (match fields.lookup "settings" with
            | some (.obj s) => classify_zones fuel (.obj s) (settingsPath path)
            | _ => ([] : List Zone)))) := by
  simp only [classify_zones]
  rw [List.append_assoc]

/-- `ownZones` as a `filterMap` over the five zone types in order. -/
theorem ownZones_eq (fields : JObj) (path : String) :
    ownZones fields path
      = [ZoneType.structural, .content, .styling, .behavioral, .meta].filterMap
          (fun t =>
            if (zoneBucket fields t).isEmpty then none
            else some ⟨t, zonePath path, zoneBucket fields t,
                       (zoneBucket fields t).keys⟩) := by
  unfold ownZones
  simp only [List.filterMap_cons, List.filterMap_nil]
  split_ifs <;> rfl

/-- Every own zone is the canonical zone of its type. -/
theorem mem_ownZones {z : Zone} {fields : JObj} {path : String}
    (h : z ∈ ownZones fields path) :
    z = ⟨z.zone_type, zonePath path, zoneBucket fields z.zone_type,
         (zoneBucket fields z.zone_type).keys⟩
    ∧ (zoneBucket fields z.zone_type).isEmpty = false := by
  rw [ownZones_eq] at h
  rcases List.mem_filterMap.mp h with ⟨t, _, hf⟩
  by_cases he : (zoneBucket fields t).isEmpty <;> simp [he] at hf
  subst hf
  exact ⟨rfl, by simpa using he⟩

/-- The canonical zone of a type with a non-empty bucket is an own zone. -/
theorem ownZones_mem_of_nonempty {fields : JObj} {path : String} {t : ZoneType}
    (h : (zoneBucket fields t).isEmpty = false) :
    (⟨t, zonePath path, zoneBucket fields t,
      (zoneBucket fields t).keys⟩ : Zone) ∈ ownZones fields path := by
  rw [ownZones_eq]
  refine List.mem_filterMap.mpr ⟨t, ?_, ?_⟩
  · cases t <;> simp
  · simp [h]

/-- The concatenated `original_keys` of a node's own zones are the five
bucket key lists in order. -/
theorem ownZones_keys_flatten (fields : JObj) (path : String) :
    ((ownZones fields path).map Zone.original_keys).flatten
      = (zoneBucket fields .structural).keys
        ++ ((zoneBucket fields .content).keys
        ++ ((zoneBucket fields .styling).keys
        ++ ((zoneBucket fields .behavioral).keys
        ++ (zoneBucket fields .meta).keys))) := by
  simp only [ownZones]
  split_ifs <;> simp_all [keys_eq_nil_of_isEmpty]

/-- C1.  Partition invariant: for every node given as a dict, the zones
`classify_zones` emits for the node's own entries (the prefix of its output
before any zone produced by recursion into children or nested settings)
carry `original_keys` lists whose concatenation is a permutation of the
node's key list — no key dropped, none duplicated — and no key belongs to
the `original_keys` of two different own zones. -/
theorem classify_zones_partition (fuel : Nat) (fields : JObj) (path : String) :
    (∃ rest, classify_zones (fuel + 1) (.obj fields) path
       = ownZones fields path ++ rest)
    ∧ (((ownZones fields path).map Zone.original_keys).flatten).Perm fields.keys
    ∧ (∀ z1 ∈ ownZones fields path, ∀ z2 ∈ ownZones fields path,
        ∀ k, k ∈ z1.original_keys → k ∈ z2.original_keys → z1 = z2) := by
  refine ⟨⟨_, classify_zones_succ fuel fields path⟩, ?_, ?_⟩
  · rw [ownZones_keys_flatten, keys_zoneBucket, keys_zoneBucket, keys_zoneBucket,
      keys_zoneBucket, keys_zoneBucket]
    exact classifyKey_filter_perm fields.keys
  · intro z1 h1 z2 h2 k hk1 hk2
    obtain ⟨e1, _⟩ := mem_ownZones h1
    obtain ⟨e2, _⟩ := mem_ownZones h2
    rw [e1] at hk1
    rw [e2] at hk2
    simp only [keys_zoneBucket, List.mem_filter, beq_iff_eq] at hk1 hk2
    rw [e1, e2, hk1.2.symm.trans hk2.2]

/-- C7.  Classification example and per-node zone order: the example map
yields exactly a Content, a Styling and a Behavioral zone (no Meta zone)
in that order; in general a dict's own zones come strictly before all
descendant zones, and their types appear in the fixed order structural,
content, styling, behavioral, meta with empty buckets omitted. -/
theorem classify_zones_example_and_order :
    (classify_zones 1 (.obj exampleMap) ""
      = [⟨ZoneType.content, "root", .cons "title" (.str "Hi") .nil, ["title"]⟩,
         ⟨ZoneType.styling, "root", .cons "background_color" (.str "#fff") .nil,
          ["background_color"]⟩,
         ⟨ZoneType.behavioral, "root", .cons "animation" (.str "fade") .nil,
          ["animation"]⟩])
    ∧ (∀ fuel fields path, ∃ rest,
        classify_zones (fuel + 1) (.obj fields) path = ownZones fields path ++ rest)
    ∧ (∀ fields path, (ownZones fields path).map Zone.zone_type
        = [ZoneType.structural, .content, .styling, .behavioral,
           .meta].filter (fun t => !(zoneBucket fields t).isEmpty)) := by
  refine ⟨by decide,
    fun fuel fields path => ⟨_, classify_zones_succ fuel fields path⟩, ?_⟩
  intro fields path
  simp only [ownZones]
  split_ifs <;> simp_all [List.filter]

/-- C2 counterexample.  On the map `{title_color: "#f00"}` the classifier
emits a single Content zone — `title_color` does match the content rule
(`"title"` is a substring), so it is not placed in a Styling zone. -/
theorem title_color_styling_refuted :
    (classify_zones 1 (.obj titleColorMap) "").map Zone.zone_type
      = [ZoneType.content]
    ∧ ¬ ∃ z ∈ classify_zones 1 (.obj titleColorMap) "",
        z.zone_type = ZoneType.styling := by decide

/-- C2 amended.  When `classify_zones` processes a settings map containing
the key `title_color`, the content rule matches it (the keyword `title` is
a substring of the whole key), so it lands in the Content zone, and in no
own zone of any other type. -/
theorem title_color_in_content_zone (fuel : Nat) (fields : JObj) (path : String)
    (h : "title_color" ∈ fields.keys) :
    (∃ z ∈ classify_zones (fuel + 1) (.obj fields) path,
        z.zone_type = ZoneType.content ∧ "title_color" ∈ z.original_keys)
    ∧ (∀ z ∈ ownZones fields path, "title_color" ∈ z.original_keys →
        z.zone_type = ZoneType.content) := by
  have hck : classifyKey "title_color" = ZoneType.content := by decide
  have hmem : "title_color" ∈ (zoneBucket fields ZoneType.content).keys := by
    rw [keys_zoneBucket]
    exact List.mem_filter.mpr ⟨h, by simp [hck]⟩
  have hne : (zoneBucket fields ZoneType.content).isEmpty = false := by
    by_cases he : (zoneBucket fields ZoneType.content).isEmpty
    · rw [keys_eq_nil_of_isEmpty he] at hmem
      cases hmem
    · simpa using he
  constructor
  · refine ⟨⟨ZoneType.content, zonePath path, zoneBucket fields ZoneType.content,
      (zoneBucket fields ZoneType.content).keys⟩, ?_, rfl, hmem⟩
    rw [classify_zones_succ]
    exact List.mem_append_left _ (ownZones_mem_of_nonempty hne)
  · intro z hz hk
    obtain ⟨e, _⟩ := mem_ownZones hz
    rw [e] at hk
    simp only [keys_zoneBucket, List.mem_filter, beq_iff_eq] at hk
    rw [← hk.2, hck]

/-- C2 amended, witness at the concrete one-key map. -/
theorem title_color_in_content_zone_witness :
    ("title_color" ∈ titleColorMap.keys)
    ∧ ((∃ z ∈ classify_zones 1 (.obj titleColorMap) "",
          z.zone_type = ZoneType.content ∧ "title_color" ∈ z.original_keys)
       ∧ (∀ z ∈ ownZones titleColorMap "", "title_color" ∈ z.original_keys →
            z.zone_type = ZoneType.content)) :=
  ⟨by decide, title_color_in_content_zone 0 titleColorMap "" (by decide)⟩

/-- C5.  Identity transform: with no transformer function, `transform`
returns the input data unchanged with `success=true`,
`metadata_preserved=100`, and no recorded modifications or errors. -/
theorem transform_identity (fuel : Nat) (data : J)
    (zone_types : Option (List ZoneType)) :
    transform fuel data zone_types none
      = { success := true, data := data, zones_modified := [],
          metadata_preserved := 100, errors := [] } := rfl

/-- C4.  Error-isolation scenario: on a tree of 3 sibling widgets where the
transformer raises only on widget 2's content zone and retitles the others,
the result has `success=false`, exactly one error entry, that entry
mentions widget 2's zone path `[1].settings`, and widgets 1 and 3 carry
their transformed titles while widget 2 is untouched. -/
theorem transform_error_isolation_scenario :
    (transform 5 isolationTree none (some isolationFn)).success = false
    ∧ (transform 5 isolationTree none (some isolationFn)).errors
        = [J.str "Error transforming zone at [1].settings: boom"]
    ∧ containsSeq "Error transforming zone at [1].settings: boom" "[1].settings"
        = true
    ∧ (transform 5 isolationTree none (some isolationFn)).data
        = isolationExpected := by
  refine ⟨by decide, by decide, by decide, by decide⟩

/-- C6 counterexample.  `caption` belongs to the classifier's content
keyword list (rule 2) and `{caption: "Hi"}` passes the value test, yet
`extract_content` emits nothing for it: the extractor's inline keyword
list is shorter than the classifier's. -/
theorem extract_content_caption_refuted :
    classifyKey "caption" = ZoneType.content
    ∧ ("caption" ∈ contentKeywords ∧ "caption" ∉ extractKeywords)
    ∧ extractableValue (.str "Hi") = true
    ∧ extract_content 3 captionNode = [] := by decide

/-- C6 amended.  Extraction scans settings with the shorter keyword list
{text, title, content, description, heading, editor}: a `caption` value is
never extracted whatever it is, and the two-widget example
`{title:"Welcome"}` / `{title:""}` yields exactly one ContentItem. -/
theorem extract_content_keyword_list (v : J) (fuel : Nat) :
    extract_content fuel (captionNodeOf v) = []
    ∧ extract_content 3 welcomeTree
      = [⟨"[0].settings.title", "title", "Welcome", .str "unknown"⟩] := by
  refine ⟨?_, by decide⟩
  cases fuel with
  | zero => rfl
  | succ n =>
    simp [extract_content, extract_recursive, captionNodeOf, scanSettings,
      JObj.lookup]
    intro x hx hgo
    exact absurd hgo (by fin_cases hx <;> decide)

/-- C8 counterexample.  The transformer returns data holding only a fresh
key: the zone data differs, so the zone's path is recorded in
`zones_modified`, but write-back discards the unknown key and the result
tree is identical to the input — the recorded path does not correspond to
any changed sub-map. -/
theorem modified_path_without_change :
    (transform 3 fooTree none (some freshKeyFn)).zones_modified = ["[0]"]
    ∧ (transform 3 fooTree none (some freshKeyFn)).data = fooTree := by
  refine ⟨by decide, by decide⟩

/-- C9 counterexample.  A transformer that returns `{settings: {b: 2}}`
for the node's meta zone replaces the whole settings value at its existing
key: the settings map's key set changes from `{a}` to `{b}`. -/
theorem settings_keys_not_preserved :
    settingsATree
      = .obj (.cons "settings" (.obj (.cons "a" (.num 1) .nil)) .nil)
    ∧ (transform 3 settingsATree none (some replaceSettingsFn)).data
      = .obj (.cons "settings" (.obj (.cons "b" (.num 2) .nil)) .nil)
    ∧ (JObj.cons "b" (.num 2) .nil).keys ≠ (JObj.cons "a" (.num 1) .nil).keys := by
  decide

/-- C10.  Repeated zone processing: a zone one level below the root is
passed to the transformer twice (classified by the root and again by its
own node), a zone two levels down three times; so a single changed nested
zone appears 2 (resp. 3) times in `zones_modified`, and a transformer
raising on a nested zone produces 2 error entries for one bad zone. -/
theorem transform_nested_zone_duplication :
    (transform 5 nestedDepth1 none (some retitleFn)).zones_modified
      = ["elements[0]", "elements[0]"]
    ∧ (transform 5 nestedDepth2 none (some retitleFn)).zones_modified
      = ["elements[0].elements[0]", "elements[0].elements[0]",
         "elements[0].elements[0]"]
    ∧ (transform 5 nestedDepth1 none (some raiseOnContentFn)).errors
      = [errorEntry "elements[0]" "boom", errorEntry "elements[0]" "boom"]
    ∧ (transform 5 nestedDepth1 none (some raiseOnContentFn)).success = false := by
  refine ⟨by decide, by decide, by decide, by decide⟩

/-- C3 counterexample.  The recorded error entry is the flat string
`"Error transforming zone at {path}: {message}"`, not a structured
`{path, message}` record. -/
theorem transform_errors_not_structured :
    (transform 3 fooNode none (some alwaysRaiseFn)).errors
      = [J.str "Error transforming zone at root: boom"]
    ∧ ¬ ∃ p m, (transform 3 fooNode none (some alwaysRaiseFn)).errors
        = [J.obj (.cons "path" (.str p) (.cons "message" (.str m) .nil))] := by
  refine ⟨by decide, ?_⟩
  rintro ⟨p, m, h⟩
  rw [show (transform 3 fooNode none (some alwaysRaiseFn)).errors
      = [J.str "Error transforming zone at root: boom"] from by decide] at h
  simp at h

/-! Key-set bookkeeping of the write-back path. -/

/-- Setting an existing key leaves the key list unchanged. -/
theorem keys_set_of_hasKey : (o : JObj) → (k : String) → (v : J) →
    o.hasKey k = true → (o.set k v).keys = o.keys
  | .nil, k, _, h => by simp [JObj.hasKey, JObj.lookup] at h
  | .cons k' v' t, k, v, h => by
    by_cases he : k' == k
    · simp [JObj.set, he, JObj.keys]
    · have ht : t.hasKey k = true := by
        simpa [JObj.hasKey, JObj.lookup, he] using h
      simp [JObj.set, he, JObj.keys, keys_set_of_hasKey t k v ht]

/-- A successful lookup means the key is present. -/
theorem hasKey_of_lookup {o : JObj} {k : String} {v : J}
    (h : o.lookup k = some v) : o.hasKey k = true := by
  simp [JObj.hasKey, h]

/-- A successful write-back step never changes the element's key list. -/
theorem keys_writeBackKey (el : JObj) (k : String) (v : J) :
    ∀ {el'}, writeBackKey el k v = .ok el' → el'.keys = el.keys := by
  intro el' hel
  unfold writeBackKey at hel
  by_cases h : el.hasKey k
  · rw [if_pos h, Except.ok.injEq] at hel
    subst hel
    exact keys_set_of_hasKey el k v h
  · rw [if_neg h] at hel
    split at hel
    · rename_i s heq
      split_ifs at hel with hs
      · rw [Except.ok.injEq] at hel
        subst hel
        exact keys_set_of_hasKey el "settings" _ (hasKey_of_lookup heq)
      · rw [Except.ok.injEq] at hel
        subst hel
        rfl
    · rename_i s heq
      split_ifs at hel with hs
      cases hel
      rfl
    · rename_i items heq
      split_ifs at hel with hs
      cases hel
      rfl
    · cases hel
    · cases hel
    · cases hel
    · rw [Except.ok.injEq] at hel
      subst hel
      rfl

/-- The write-back loop never changes the element's key list, even when it
aborts on a `TypeError`. -/
theorem keys_writeBackAll : (data : JObj) → (el : JObj) →
    ((writeBackAll el data).1).keys = el.keys
  | .nil, _ => rfl
  | .cons k v t, el => by
    simp only [writeBackAll]
    rcases hwb : writeBackKey el k v with msg | el'
    · rfl
    · rw [keys_writeBackAll t el', keys_writeBackKey el k v hwb]

/-- The per-zone loop never changes the element's key list. -/
theorem keys_applyZones (f : Zone → Except String Zone)
    (zt : Option (List ZoneType)) :
    (zones : List Zone) → (el : JObj) → (m : List String) → (e : List J) →
    ((applyZones f zt zones el m e).1).keys = el.keys
  | [], _, _, _ => rfl
  | z :: rest, el, m, e => by
    unfold applyZones
    by_cases hm : zoneMatches zt z
    · simp only [hm, if_true]
      cases hf : f z with
      | ok tz =>
        cases hd : pyEq (.obj tz.data) (.obj z.data) with
        | true =>
          simp only [hd, Bool.not_true, Bool.false_eq_true, if_false]
          exact keys_applyZones f zt rest el m e
        | false =>
          simp only [hd, Bool.not_false, if_true]
          rcases hwb : writeBackAll el tz.data with ⟨el', err⟩
          have hk : el'.keys = el.keys := by
            rw [show el' = (writeBackAll el tz.data).1 from by rw [hwb]]
            exact keys_writeBackAll tz.data el
          cases err with
          | none =>
            dsimp only
            rw [keys_applyZones f zt rest el' (m ++ [z.path]) e, hk]
          | some msg =>
            dsimp only
            rw [keys_applyZones f zt rest el' (m ++ [z.path])
              (e ++ [errorEntry z.path msg]), hk]
      | error msg =>
        dsimp only
        exact keys_applyZones f zt rest el m (e ++ [errorEntry z.path msg])
    · simp only [hm, if_false]
      exact keys_applyZones f zt rest el m e

/-- C9 amended.  Write-back only assigns to keys already present in the
node (or replaces an existing key inside its settings dict), so every dict
processed by `process_element` keeps exactly its own key list — also when
a write-back aborts on a `TypeError` — and so does a dict handed to
`transform`; a returned key absent from both node and settings is
discarded (silently, or with a recorded `TypeError` when the settings
value is not a dict).  (The key set of a nested settings map can still
change, because the `settings` value itself sits at an existing key and
may be replaced wholesale — see the counterexample.) -/
theorem process_element_preserves_keys
    (f : Zone → Except String Zone) (zt : Option (List ZoneType)) (fuel : Nat)
    (fields : JObj) (path : String) (acc : List String × List J) :
    (∃ fields', (process_element f zt fuel (.obj fields) path acc).1
        = .obj fields' ∧ fields'.keys = fields.keys)
    ∧ (∃ fields', (transform fuel (.obj fields) zt (some f)).data
        = .obj fields' ∧ fields'.keys = fields.keys) := by
  have main : ∀ (p : String) (acc : List String × List J),
      ∃ fields', (process_element f zt fuel (.obj fields) p acc).1
        = .obj fields' ∧ fields'.keys = fields.keys := by
    intro p a
    cases fuel with
    | zero => exact ⟨fields, rfl, rfl⟩
    | succ n =>
      simp only [process_element]
      split
      · rename_i children heq
        refine ⟨_, rfl, ?_⟩
        rw [keys_set_of_hasKey _ _ _ (hasKey_of_lookup heq)]
        exact keys_applyZones f zt _ fields a.1 a.2
      · exact ⟨_, rfl, keys_applyZones f zt _ fields a.1 a.2⟩
  refine ⟨main path acc, ?_⟩
  have h0 := main "" ([], [])
  simpa [transform] using h0

/-! Bookkeeping of `zones_modified` and `errors`. -/

/-- The per-zone loop appends to both accumulators, and everything it
appends satisfies the modification / error characterizations. -/
theorem applyZones_deltas (f : Zone → Except String Zone)
    (zt : Option (List ZoneType)) :
    (zones : List Zone) → (el : JObj) → (m : List String) → (e : List J) →
    ∃ δm δe,
      (applyZones f zt zones el m e).2.1 = m ++ δm
      ∧ (applyZones f zt zones el m e).2.2 = e ++ δe
      ∧ modsProp f δm ∧ errsProp f δe
  | [], el, m, e =>
    ⟨[], [], by simp [applyZones], by simp [applyZones],
     by simp [modsProp], by simp [errsProp]⟩
  | z :: rest, el, m, e => by
    unfold applyZones
    by_cases hm : zoneMatches zt z = true
    · simp only [hm, if_true]
      cases hf : f z with
      | ok tz =>
        cases hd : pyEq (.obj tz.data) (.obj z.data) with
        | true =>
          simp only [hd, Bool.not_true, Bool.false_eq_true, if_false]
          exact applyZones_deltas f zt rest el m e
        | false =>
          simp only [hd, Bool.not_false, if_true]
          rcases hwb : writeBackAll el tz.data with ⟨el', err⟩
          cases err with
          | none =>
            dsimp only
            obtain ⟨δm, δe, h1, h2, h3, h4⟩ :=
              applyZones_deltas f zt rest el' (m ++ [z.path]) e
            refine ⟨z.path :: δm, δe, ?_, h2, ?_, h4⟩
            · rw [h1, List.append_assoc]
              rfl
            · intro p hp
              rcases List.mem_cons.mp hp with rfl | hp'
              · exact ⟨z, tz, hf, hd, rfl⟩
              · exact h3 p hp'
          | some msg =>
            dsimp only
            obtain ⟨δm, δe, h1, h2, h3, h4⟩ :=
              applyZones_deltas f zt rest el' (m ++ [z.path])
                (e ++ [errorEntry z.path msg])
            refine ⟨z.path :: δm, errorEntry z.path msg :: δe, ?_, ?_, ?_, ?_⟩
            · rw [h1, List.append_assoc]
              rfl
            · rw [h2, List.append_assoc]
              rfl
            · intro p hp
              rcases List.mem_cons.mp hp with rfl | hp'
              · exact ⟨z, tz, hf, hd, rfl⟩
              · exact h3 p hp'
            · intro x hx
              rcases List.mem_cons.mp hx with rfl | hx'
              · exact ⟨z, msg, rfl, Or.inr ⟨tz, el, hf, hd, by rw [hwb]⟩⟩
              · exact h4 x hx'
      | error msg =>
        obtain ⟨δm, δe, h1, h2, h3, h4⟩ :=
          applyZones_deltas f zt rest el m (e ++ [errorEntry z.path msg])
        refine ⟨δm, errorEntry z.path msg :: δe, h1, ?_, h3, ?_⟩
        · rw [h2, List.append_assoc]
          rfl
        · intro x hx
          rcases List.mem_cons.mp hx with rfl | hx'
          · exact ⟨z, msg, rfl, Or.inl hf⟩
          · exact h4 x hx'
    · simp only [hm, if_false]
      exact applyZones_deltas f zt rest el m e

/-- Folding `process_element` over an indexed child list appends to both
accumulators, preserving the modification / error characterizations. -/
theorem foldl_deltas (f : Zone → Except String Zone)
    (zt : Option (List ZoneType)) (fuel : Nat) (pf : Nat → String)
    (hIH : ∀ el p acc, ∃ δm δe,
      (process_element f zt fuel el p acc).2.1 = acc.1 ++ δm
      ∧ (process_element f zt fuel el p acc).2.2 = acc.2 ++ δe
      ∧ modsProp f δm ∧ errsProp f δe) :
    ∀ (l : List (Nat × J)) (init : List J × (List String × List J)),
    ∃ δm δe,
      (l.foldl (fun st ic =>
        let pr := process_element f zt fuel ic.2 (pf ic.1) st.2
        (st.1 ++ [pr.1], pr.2)) init).2.1 = init.2.1 ++ δm
      ∧ (l.foldl (fun st ic =>
          let pr := process_element f zt fuel ic.2 (pf ic.1) st.2
          (st.1 ++ [pr.1], pr.2)) init).2.2 = init.2.2 ++ δe
      ∧ modsProp f δm ∧ errsProp f δe
  | [], init => ⟨[], [], by simp, by simp, by simp [modsProp], by simp [errsProp]⟩
  | ic :: rest, init => by
    simp only [List.foldl_cons]
    obtain ⟨δm1, δe1, h1, h2, h3, h4⟩ := hIH ic.2 (pf ic.1) init.2
    obtain ⟨δm2, δe2, g1, g2, g3, g4⟩ :=
      foldl_deltas f zt fuel pf hIH rest
        (init.1 ++ [(process_element f zt fuel ic.2 (pf ic.1) init.2).1],
         (process_element f zt fuel ic.2 (pf ic.1) init.2).2)
    refine ⟨δm1 ++ δm2, δe1 ++ δe2, ?_, ?_, ?_, ?_⟩
    · rw [g1, h1, List.append_assoc]
    · rw [g2, h2, List.append_assoc]
    · intro p hp
      rcases List.mem_append.mp hp with hp' | hp'
      · exact h3 p hp'
      · exact g3 p hp'
    · intro x hx
      rcases List.mem_append.mp hx with hx' | hx'
      · exact h4 x hx'
      · exact g4 x hx'

/-- `process_element` appends to both accumulators, and everything appended
satisfies the modification / error characterizations. -/
theorem process_element_deltas (f : Zone → Except String Zone)
    (zt : Option (List ZoneType)) :
    (fuel : Nat) → (el : J) → (path : String) →
    (acc : List String × List J) →
    ∃ δm δe,
      (process_element f zt fuel el path acc).2.1 = acc.1 ++ δm
      ∧ (process_element f zt fuel el path acc).2.2 = acc.2 ++ δe
      ∧ modsProp f δm ∧ errsProp f δe
  | 0, el, path, acc =>
    ⟨[], [], by simp [process_element], by simp [process_element],
     by simp [modsProp], by simp [errsProp]⟩
  | fuel + 1, el, path, acc => by
    cases el with
    | obj fields =>
      simp only [process_element]
      obtain ⟨δm1, δe1, h1, h2, h3, h4⟩ :=
        applyZones_deltas f zt
          (classify_zones (fuel + 1) (.obj fields) path) fields acc.1 acc.2
      split
      · rename_i children heq
        obtain ⟨δm2, δe2, g1, g2, g3, g4⟩ :=
          foldl_deltas f zt fuel (fun i => childPath path i)
            (fun el p a => process_element_deltas f zt fuel el p a)
            children.toList.enum
            ([], ((applyZones f zt
                (classify_zones (fuel + 1) (.obj fields) path)
                fields acc.1 acc.2).2.1,
              (applyZones f zt
                (classify_zones (fuel + 1) (.obj fields) path)
                fields acc.1 acc.2).2.2))
        refine ⟨δm1 ++ δm2, δe1 ++ δe2, ?_, ?_, ?_, ?_⟩
        · rw [g1, h1, List.append_assoc]
        · rw [g2, h2, List.append_assoc]
        · intro p hp
          rcases List.mem_append.mp hp with hp' | hp'
          · exact h3 p hp'
          · exact g3 p hp'
        · intro x hx
          rcases List.mem_append.mp hx with hx' | hx'
          · exact h4 x hx'
          · exact g4 x hx'
      · exact ⟨δm1, δe1, h1, h2, h3, h4⟩
    | null => exact ⟨[], [], by simp [process_element], by simp [process_element],
        by simp [modsProp], by simp [errsProp]⟩
    | bool b => exact ⟨[], [], by simp [process_element], by simp [process_element],
        by simp [modsProp], by simp [errsProp]⟩
    | num n => exact ⟨[], [], by simp [process_element], by simp [process_element],
        by simp [modsProp], by simp [errsProp]⟩
    | str s => exact ⟨[], [], by simp [process_element], by simp [process_element],
        by simp [modsProp], by simp [errsProp]⟩
    | arr a => exact ⟨[], [], by simp [process_element], by simp [process_element],
        by simp [modsProp], by simp [errsProp]⟩

/-- C8 amended.  A path is recorded in `zones_modified` only when the
transformer returned data that differs by Python value equality from the
zone's data; the recorded string is that zone's classification path (the
path of the node or settings map containing the zone, or the sentinel
`root`).  The recorded path need not correspond to any actual change in
the result tree: write-back can discard every returned key (see the
counterexample). -/
theorem zones_modified_only_on_diff (fuel : Nat) (data : J)
    (zt : Option (List ZoneType)) (f : Zone → Except String Zone)
    (p : String)
    (hp : p ∈ (transform fuel data zt (some f)).zones_modified) :
    ∃ z tz, f z = .ok tz
      ∧ pyEq (.obj tz.data) (.obj z.data) = false ∧ z.path = p := by
  cases data with
  | arr items =>
    simp only [transform] at hp
    obtain ⟨δm, δe, h1, _, h3, _⟩ :=
      foldl_deltas f zt fuel (fun i => "[" ++ toString i ++ "]")
        (fun el q a => process_element_deltas f zt fuel el q a)
        items.toList.enum ([], ([], []))
    rw [h1] at hp
    exact h3 p (by simpa using hp)
  | obj fields =>
    simp only [transform] at hp
    obtain ⟨δm, δe, h1, _, h3, _⟩ :=
      process_element_deltas f zt fuel (.obj fields) "" ([], [])
    rw [h1] at hp
    exact h3 p (by simpa using hp)
  | null => simp [transform] at hp
  | bool b => simp [transform] at hp
  | num n => simp [transform] at hp
  | str s => simp [transform] at hp

/-- C8 amended, witness: the concrete fresh-key run records exactly the
path `[0]`, and the transformer indeed returned value-different data for a
zone with that path. -/
theorem zones_modified_only_on_diff_witness :
    ("[0]" ∈ (transform 3 fooTree none (some freshKeyFn)).zones_modified)
    ∧ ∃ z tz, freshKeyFn z = .ok tz
        ∧ pyEq (.obj tz.data) (.obj z.data) = false ∧ z.path = "[0]" :=
  ⟨by decide,
   zones_modified_only_on_diff 3 fooTree none freshKeyFn "[0]" (by decide)⟩

/-! Well-formed values, Python-equality reflexivity. -/

/-- A successful lookup yields an entry of the dict. -/
theorem memEntry_of_lookup : {o : JObj} → {k : String} → {v : J} →
    o.lookup k = some v → JObj.memEntry k v o
  | .nil, _, _, h => by simp [JObj.lookup] at h
  | .cons k' v' t, k, v, h => by
    by_cases he : k' == k
    · simp only [JObj.lookup, he, if_true, Option.some.injEq] at h
      exact Or.inl ⟨by simpa using he, h⟩
    · simp only [JObj.lookup, he, if_false] at h
      exact Or.inr (memEntry_of_lookup h)

/-- An entry of the dict makes its key present. -/
theorem hasKey_of_memEntry : {o : JObj} → {k : String} → {v : J} →
    JObj.memEntry k v o → o.hasKey k = true
  | .nil, _, _, h => h.elim
  | .cons k' v' t, k, v, h => by
    rcases h with ⟨rfl, rfl⟩ | h'
    · simp [JObj.hasKey, JObj.lookup]
    · by_cases he : k' == k
      · simp [JObj.hasKey, JObj.lookup, he]
      · simpa [JObj.hasKey, JObj.lookup, he] using hasKey_of_memEntry h'

/-- In a dict with distinct keys, an entry is what lookup finds. -/
theorem lookup_of_memEntry_distinct : {o : JObj} → {k : String} → {v : J} →
    o.distinctKeys = true → JObj.memEntry k v o → o.lookup k = some v
  | .nil, _, _, _, h => h.elim
  | .cons k' v' t, k, v, hd, h => by
    obtain ⟨hnk, hdt⟩ := by simpa [JObj.distinctKeys, Bool.and_eq_true] using hd
    rcases h with ⟨rfl, rfl⟩ | h'
    · simp [JObj.lookup]
    · have hk : t.hasKey k = true := hasKey_of_memEntry h'
      by_cases he : k' == k
      · rw [show k' = k from by simpa using he] at hnk
        rw [hk] at hnk
        cases hnk
      · simpa [JObj.lookup, he] using lookup_of_memEntry_distinct hdt h'

/-- The values of a well-formed dict are well-formed. -/
theorem wfJ_of_memEntry : {o : JObj} → {k : String} → {v : J} →
    wfObj o = true → JObj.memEntry k v o → wfJ v = true
  | .nil, _, _, _, h => h.elim
  | .cons k' v' t, k, v, hw, h => by
    obtain ⟨hv, ht⟩ := by simpa [wfObj, Bool.and_eq_true] using hw
    rcases h with ⟨rfl, rfl⟩ | h'
    · exact hv
    · exact wfJ_of_memEntry ht h'

mutual

/-- Python equality is reflexive on well-formed values. -/
theorem pyEq_refl : (v : J) → wfJ v = true → pyEq v v = true
  | .null, _ => rfl
  | .bool b, _ => by simp [pyEq]
  | .num n, _ => by simp [pyEq]
  | .str s, _ => by simp [pyEq]
  | .arr a, h => by
    simpa [pyEq] using pyEqArr_refl a (by simpa [wfJ] using h)
  | .obj o, h => by
    obtain ⟨hd, hw⟩ := by simpa [wfJ, Bool.and_eq_true] using h
    have hsub : pyEqSub o o = true :=
      pyEqSub_refl_aux o o (fun k v hm =>
        ⟨lookup_of_memEntry_distinct hd hm, wfJ_of_memEntry hw hm⟩)
    simp [pyEq, hsub]

theorem pyEqArr_refl : (a : JArr) → wfArr a = true → pyEqArr a a = true
  | .nil, _ => rfl
  | .cons h t, hw => by
    obtain ⟨h1, h2⟩ := by simpa [wfArr, Bool.and_eq_true] using hw
    simp [pyEqArr, pyEq_refl h h1, pyEqArr_refl t h2]

theorem pyEqSub_refl_aux : (sub : JObj) → (whole : JObj) →
    (∀ k v, JObj.memEntry k v sub → whole.lookup k = some v ∧ wfJ v = true) →
    pyEqSub sub whole = true
  | .nil, _, _ => rfl
  | .cons k v t, whole, hp => by
    obtain ⟨hl, hv⟩ := hp k v (Or.inl ⟨rfl, rfl⟩)
    have ht : pyEqSub t whole = true :=
      pyEqSub_refl_aux t whole (fun k' v' hm => hp k' v' (Or.inr hm))
    simp [pyEqSub, hl, pyEq_refl v hv, ht]

end

/-! Zone data of a well-formed element is Python-equal to itself. -/

/-- Bucket entries come from the element. -/
theorem memEntry_zoneBucket : {fields : JObj} → {t : ZoneType} → {k : String} →
    {v : J} → JObj.memEntry k v (zoneBucket fields t) → JObj.memEntry k v fields
  | .nil, _, _, _, h => by simp [zoneBucket] at h; exact h.elim
  | .cons k' v' tl, t, k, v, h => by
    by_cases hc : classifyKey k' == t
    · simp only [zoneBucket, hc, if_true] at h
      rcases h with ⟨rfl, rfl⟩ | h'
      · exact Or.inl ⟨rfl, rfl⟩
      · exact Or.inr (memEntry_zoneBucket h')
    · simp only [zoneBucket, hc, if_false] at h
      exact Or.inr (memEntry_zoneBucket h)

/-- A key present in a bucket is present in the element. -/
theorem hasKey_of_zoneBucket {fields : JObj} {t : ZoneType} {k : String}
    (h : (zoneBucket fields t).hasKey k = true) : fields.hasKey k = true := by
  rcases ho : (zoneBucket fields t).lookup k with _ | v
  · simp [JObj.hasKey, ho] at h
  · exact hasKey_of_memEntry (memEntry_zoneBucket (memEntry_of_lookup ho))

/-- Buckets of a distinct-keyed dict have distinct keys. -/
theorem distinctKeys_zoneBucket : {fields : JObj} → {t : ZoneType} →
    fields.distinctKeys = true → (zoneBucket fields t).distinctKeys = true
  | .nil, _, _ => rfl
  | .cons k v tl, t, hd => by
    obtain ⟨hnk, hdt⟩ := by simpa [JObj.distinctKeys, Bool.and_eq_true] using hd
    by_cases hc : classifyKey k == t
    · have hb : (zoneBucket tl t).hasKey k = false := by
        rcases hh : (zoneBucket tl t).hasKey k with _ | _
        · rfl
        · rw [hasKey_of_zoneBucket hh] at hnk
          cases hnk
      simp [zoneBucket, hc, JObj.distinctKeys, hb, distinctKeys_zoneBucket hdt]
    · simp [zoneBucket, hc, distinctKeys_zoneBucket hdt]

/-- Buckets of a well-formed dict hold well-formed values. -/
theorem wfObj_zoneBucket : {fields : JObj} → {t : ZoneType} →
    wfObj fields = true → wfObj (zoneBucket fields t) = true
  | .nil, _, _ => rfl
  | .cons k v tl, t, hw => by
    obtain ⟨hv, ht⟩ := by simpa [wfObj, Bool.and_eq_true] using hw
    by_cases hc : classifyKey k == t
    · simp [zoneBucket, hc, wfObj, hv, wfObj_zoneBucket ht]
    · simp [zoneBucket, hc, wfObj_zoneBucket ht]

/-- Members of a well-formed embedded list are well-formed. -/
theorem wfJ_of_mem_toList : {a : JArr} → {c : J} →
    wfArr a = true → c ∈ a.toList → wfJ c = true
  | .nil, _, _, hc => by simp [JArr.toList] at hc
  | .cons h t, c, hw, hc => by
    obtain ⟨h1, h2⟩ := by simpa [wfArr, Bool.and_eq_true] using hw
    rcases List.mem_cons.mp hc with rfl | hc'
    · exact h1
    · exact wfJ_of_mem_toList h2 hc'

/-- The value component of an enumerated entry is a member of the list. -/
theorem snd_mem_of_mem_enumFrom : {l : List α} → {n : Nat} → {ic : Nat × α} →
    ic ∈ l.enumFrom n → ic.2 ∈ l
  | [], _, _, h => by simp [List.enumFrom] at h
  | x :: xs, n, ic, h => by
    rcases List.mem_cons.mp h with rfl | h'
    · exact List.mem_cons_self _ _
    · exact List.mem_cons_of_mem _ (snd_mem_of_mem_enumFrom h')

/-- Every zone of a well-formed element (own or descendant) has data that
is Python-equal to itself. -/
theorem classify_data_refl : (fuel : Nat) → (el : J) → (path : String) →
    wfJ el = true → ∀ z ∈ classify_zones fuel el path,
      pyEq (.obj z.data) (.obj z.data) = true
  | 0, el, path, _, z, hz => by simp [classify_zones] at hz
  | fuel + 1, el, path, hwf, z, hz => by
    cases el with
    | obj fields =>
      obtain ⟨hd, hw⟩ := by simpa [wfJ, Bool.and_eq_true] using hwf
      rw [classify_zones_succ] at hz
      rcases List.mem_append.mp hz with hz1 | hz2
      · obtain ⟨e, _⟩ := mem_ownZones hz1
        rw [e]
        exact pyEq_refl (.obj (zoneBucket fields z.zone_type))
          (by simp [wfJ, Bool.and_eq_true,
            distinctKeys_zoneBucket hd, wfObj_zoneBucket hw])
      · rcases List.mem_append.mp hz2 with hc | hs
        · rcases hel : fields.lookup "elements" with _ | val
          · rw [hel] at hc
            simp at hc
          · rw [hel] at hc
            cases val with
            | arr children =>
              rcases List.mem_flatten.mp hc with ⟨zl, hzl, hzin⟩
              rcases List.mem_map.mp hzl with ⟨ic, hic, rfl⟩
              have hwfc : wfJ ic.2 = true :=
                wfJ_of_mem_toList
                  (by simpa [wfJ] using
                    wfJ_of_memEntry hw (memEntry_of_lookup hel))
                  (snd_mem_of_mem_enumFrom (by simpa [List.enum] using hic))
              exact classify_data_refl fuel ic.2 (childPath path ic.1) hwfc z hzin
            | null => simp at hc
            | bool b => simp at hc
            | num n => simp at hc
            | str s => simp at hc
            | obj o => simp at hc
        · rcases hst : fields.lookup "settings" with _ | val
          · rw [hst] at hs
            simp at hs
          · rw [hst] at hs
            cases val with
            | obj s =>
              exact classify_data_refl fuel (.obj s) (settingsPath path)
                (wfJ_of_memEntry hw (memEntry_of_lookup hst)) z hs
            | null => simp at hs
            | bool b => simp at hs
            | num n => simp at hs
            | str s => simp at hs
            | arr a => simp at hs
    | null => simp [classify_zones] at hz
    | bool b => simp [classify_zones] at hz
    | num n => simp [classify_zones] at hz
    | str s => simp [classify_zones] at hz
    | arr a => simp [classify_zones] at hz

/-! Well-formedness is preserved by the write-back path. -/

/-- Key presence is key-list membership. -/
theorem hasKey_iff_mem_keys : {o : JObj} → {k : String} →
    (o.hasKey k = true ↔ k ∈ o.keys)
  | .nil, k => by simp [JObj.hasKey, JObj.lookup, JObj.keys]
  | .cons k' v t, k => by
    by_cases he : k' == k
    · simp [JObj.hasKey, JObj.lookup, he, JObj.keys,
        show k' = k from by simpa using he]
    · have ih := hasKey_iff_mem_keys (o := t) (k := k)
      simp only [JObj.hasKey] at ih
      simp only [JObj.hasKey, JObj.lookup, he, if_false, JObj.keys,
        List.mem_cons, Bool.false_eq_true, reduceIte]
      rw [ih]
      simp [show ¬ k = k' from fun h => by simp [h] at he]

/-- Distinctness of keys only depends on the key list. -/
theorem distinctKeys_iff_nodup : {o : JObj} → (o.distinctKeys = true ↔ o.keys.Nodup)
  | .nil => by simp [JObj.distinctKeys, JObj.keys]
  | .cons k v t => by
    simp only [JObj.distinctKeys, JObj.keys, Bool.and_eq_true, List.nodup_cons]
    rw [distinctKeys_iff_nodup]
    constructor
    · rintro ⟨h1, h2⟩
      refine ⟨fun hm => ?_, h2⟩
      rw [(hasKey_iff_mem_keys).mpr hm] at h1
      cases h1
    · rintro ⟨h1, h2⟩
      refine ⟨?_, h2⟩
      rcases hh : t.hasKey k with _ | _
      · rfl
      · exact absurd ((hasKey_iff_mem_keys).mp hh) h1

/-- Setting a value keeps the other values and the new one: wfObj is
preserved when the new value is well-formed. -/
theorem wfObj_set : {o : JObj} → {k : String} → {v : J} →
    wfObj o = true → wfJ v = true → wfObj (o.set k v) = true
  | .nil, k, v, _, hv => by simp [JObj.set, wfObj, hv]
  | .cons k' w t, k, v, hw, hv => by
    obtain ⟨h1, h2⟩ := by simpa [wfObj, Bool.and_eq_true] using hw
    by_cases he : k' == k
    · simp [JObj.set, he, wfObj, hv, h2]
    · simp [JObj.set, he, wfObj, h1, wfObj_set h2 hv]

/-- Setting an existing key preserves full dict well-formedness. -/
theorem wfJ_set_of_hasKey {o : JObj} {k : String} {v : J}
    (hk : o.hasKey k = true) (ho : wfJ (.obj o) = true) (hv : wfJ v = true) :
    wfJ (.obj (o.set k v)) = true := by
  obtain ⟨h1, h2⟩ := by simpa [wfJ, Bool.and_eq_true] using ho
  have hkeys := keys_set_of_hasKey o k v hk
  simp only [wfJ, Bool.and_eq_true]
  exact ⟨by rw [distinctKeys_iff_nodup, hkeys, ← distinctKeys_iff_nodup]; exact h1,
    wfObj_set h2 hv⟩

/-- A successful write-back step preserves well-formedness of the element
when the written value is well-formed. -/
theorem writeBackKey_wf {el : JObj} {k : String} {v : J}
    (ho : wfJ (.obj el) = true) (hv : wfJ v = true) :
    ∀ {el'}, writeBackKey el k v = .ok el' → wfJ (.obj el') = true := by
  intro el' hel
  unfold writeBackKey at hel
  by_cases h : el.hasKey k
  · rw [if_pos h, Except.ok.injEq] at hel
    subst hel
    exact wfJ_set_of_hasKey h ho hv
  · rw [if_neg h] at hel
    split at hel
    · rename_i s heq
      split_ifs at hel with hs
      · rw [Except.ok.injEq] at hel
        subst hel
        have hws : wfJ (.obj s) = true := by
          obtain ⟨_, hw⟩ := by simpa [wfJ, Bool.and_eq_true] using ho
          exact wfJ_of_memEntry hw (memEntry_of_lookup heq)
        obtain ⟨hd1, hd2⟩ := by simpa [wfJ, Bool.and_eq_true] using hws
        have : wfJ (.obj (s.set k v)) = true := by
          obtain h' := wfObj_set hd2 hv
          simp only [wfJ, Bool.and_eq_true]
          exact ⟨by rw [distinctKeys_iff_nodup, keys_set_of_hasKey s k v hs,
            ← distinctKeys_iff_nodup]; exact hd1, h'⟩
        exact wfJ_set_of_hasKey (hasKey_of_lookup heq) ho this
      · rw [Except.ok.injEq] at hel
        subst hel
        exact ho
    · rename_i s heq
      split_ifs at hel with hs
      cases hel
      exact ho
    · rename_i items heq
      split_ifs at hel with hs
      cases hel
      exact ho
    · cases hel
    · cases hel
    · cases hel
    · rw [Except.ok.injEq] at hel
      subst hel
      exact ho

/-- The write-back loop preserves well-formedness when the returned zone
data is well-formed, whether it completes or aborts on a `TypeError`. -/
theorem writeBackAll_wf : (data : JObj) → (el : JObj) →
    wfJ (.obj el) = true → wfObj data = true →
    wfJ (.obj (writeBackAll el data).1) = true
  | .nil, _, ho, _ => ho
  | .cons k v t, el, ho, hw => by
    obtain ⟨h1, h2⟩ := by simpa [wfObj, Bool.and_eq_true] using hw
    simp only [writeBackAll]
    rcases hwb : writeBackKey el k v with msg | el'
    · exact ho
    · exact writeBackAll_wf t el' (writeBackKey_wf ho h1 hwb) h2

/-- The per-zone loop preserves well-formedness of the element when the
transformer only returns well-formed zone data. -/
theorem applyZones_wf (f : Zone → Except String Zone)
    (zt : Option (List ZoneType))
    (hout : ∀ z tz, f z = .ok tz → wfJ (.obj tz.data) = true) :
    (zones : List Zone) → (el : JObj) → (m : List String) → (e : List J) →
    wfJ (.obj el) = true → wfJ (.obj (applyZones f zt zones el m e).1) = true
  | [], el, m, e, ho => ho
  | z :: rest, el, m, e, ho => by
    unfold applyZones
    by_cases hm : zoneMatches zt z = true
    · simp only [hm, if_true]
      cases hf : f z with
      | ok tz =>
        cases hd : pyEq (.obj tz.data) (.obj z.data) with
        | true =>
          simp only [hd, Bool.not_true, Bool.false_eq_true, if_false]
          exact applyZones_wf f zt hout rest el m e ho
        | false =>
          simp only [hd, Bool.not_false, if_true]
          have hwwf : wfJ (.obj (writeBackAll el tz.data).1) = true := by
            refine writeBackAll_wf tz.data el ho ?_
            obtain ⟨_, hw⟩ := by
              simpa [wfJ, Bool.and_eq_true] using hout z tz hf
            exact hw
          rcases hwb : writeBackAll el tz.data with ⟨el', err⟩
          rw [hwb] at hwwf
          cases err with
          | none =>
            dsimp only
            exact applyZones_wf f zt hout rest el' (m ++ [z.path]) e hwwf
          | some msg =>
            dsimp only
            exact applyZones_wf f zt hout rest el' (m ++ [z.path])
              (e ++ [errorEntry z.path msg]) hwwf
      | error msg =>
        dsimp only
        exact applyZones_wf f zt hout rest el m (e ++ [errorEntry z.path msg]) ho
    · simp only [hm, if_false]
      exact applyZones_wf f zt hout rest el m e ho

/-! Failure isolation: a raising transformer behaves like one whose raising
invocations are replaced by the identity. -/

/-- `onErrorKeep` never raises. -/
theorem onErrorKeep_ne_error (f : Zone → Except String Zone) (z : Zone)
    (msg : String) : onErrorKeep f z ≠ .error msg := by
  cases hf : f z <;> simp [onErrorKeep, hf]

/-- The per-zone loop yields the same element under `f` and under
`onErrorKeep f`, whatever the accumulators, provided every zone's data is
Python-equal to itself. -/
theorem applyZones_compare (f : Zone → Except String Zone)
    (zt : Option (List ZoneType)) :
    (zones : List Zone) →
    (∀ z ∈ zones, pyEq (.obj z.data) (.obj z.data) = true) →
    ∀ (el : JObj) (m : List String) (e : List J)
      (m' : List String) (e' : List J),
      (applyZones (onErrorKeep f) zt zones el m' e').1
        = (applyZones f zt zones el m e).1
  | [], _, el, m, e, m', e' => rfl
  | z :: rest, hrefl, el, m, e, m', e' => by
    have hr := hrefl z (List.mem_cons_self _ _)
    have hrest : ∀ z' ∈ rest, pyEq (.obj z'.data) (.obj z'.data) = true :=
      fun z' h => hrefl z' (List.mem_cons_of_mem _ h)
    unfold applyZones
    by_cases hm : zoneMatches zt z = true
    · simp only [hm, if_true]
      cases hf : f z with
      | ok tz =>
        rw [show onErrorKeep f z = .ok tz from by simp [onErrorKeep, hf]]
        dsimp only
        cases hd : pyEq (.obj tz.data) (.obj z.data) with
        | true =>
          simp only [hd, Bool.not_true, Bool.false_eq_true, if_false]
          exact applyZones_compare f zt rest hrest el m e m' e'
        | false =>
          simp only [hd, Bool.not_false, if_true]
          rcases hwb : writeBackAll el tz.data with ⟨el', err⟩
          cases err with
          | none =>
            dsimp only
            exact applyZones_compare f zt rest hrest el'
              (m ++ [z.path]) e (m' ++ [z.path]) e'
          | some msg =>
            dsimp only
            exact applyZones_compare f zt rest hrest el'
              (m ++ [z.path]) (e ++ [errorEntry z.path msg])
              (m' ++ [z.path]) (e' ++ [errorEntry z.path msg])
      | error msg =>
        rw [show onErrorKeep f z = .ok z from by simp [onErrorKeep, hf]]
        dsimp only
        rw [hr]
        simp only [Bool.not_true, Bool.false_eq_true, if_false]
        exact applyZones_compare f zt rest hrest el m
          (e ++ [errorEntry z.path msg]) m' e'
    · simp only [hm, if_false]
      exact applyZones_compare f zt rest hrest el m e m' e'

/-- Folding child processing yields the same child list under `f` and
under `onErrorKeep f` when all children are well-formed. -/
theorem foldl_compare (f : Zone → Except String Zone)
    (zt : Option (List ZoneType)) (fuel : Nat) (pf : Nat → String)
    (hcmp : ∀ el p acc acc', wfJ el = true →
      (process_element (onErrorKeep f) zt fuel el p acc').1
        = (process_element f zt fuel el p acc).1) :
    (l : List (Nat × J)) → (∀ ic ∈ l, wfJ ic.2 = true) →
    (init init' : List J × (List String × List J)) → init'.1 = init.1 →
    (l.foldl (fun st ic =>
        let pr := process_element (onErrorKeep f) zt fuel ic.2 (pf ic.1) st.2
        (st.1 ++ [pr.1], pr.2)) init').1
      = (l.foldl (fun st ic =>
          let pr := process_element f zt fuel ic.2 (pf ic.1) st.2
          (st.1 ++ [pr.1], pr.2)) init).1
  | [], _, init, init', h1 => h1
  | ic :: rest, hl, init, init', h1 => by
    simp only [List.foldl_cons]
    refine foldl_compare f zt fuel pf hcmp rest
      (fun x hx => hl x (List.mem_cons_of_mem _ hx)) _ _ ?_
    simp only [h1, hcmp ic.2 (pf ic.1) init.2 init'.2
      (hl ic (List.mem_cons_self _ _))]

/-- `process_element` yields the same element under `f` and under
`onErrorKeep f`, whatever the accumulators, for well-formed input and a
transformer returning only well-formed zone data. -/
theorem process_element_compare (f : Zone → Except String Zone)
    (zt : Option (List ZoneType))
    (hout : ∀ z tz, f z = .ok tz → wfJ (.obj tz.data) = true) :
    (fuel : Nat) → (el : J) → (path : String) →
    (acc acc' : List String × List J) → wfJ el = true →
    (process_element (onErrorKeep f) zt fuel el path acc').1
      = (process_element f zt fuel el path acc).1
  | 0, el, path, acc, acc', _ => rfl
  | fuel + 1, el, path, acc, acc', hwf => by
    cases el with
    | obj fields =>
      simp only [process_element]
      have hz := classify_data_refl (fuel + 1) (.obj fields) path hwf
      rw [applyZones_compare f zt
        (classify_zones (fuel + 1) (.obj fields) path) hz fields
        acc.1 acc.2 acc'.1 acc'.2]
      have hwf1 : wfJ (.obj (applyZones f zt
          (classify_zones (fuel + 1) (.obj fields) path)
          fields acc.1 acc.2).1) = true :=
        applyZones_wf f zt hout _ fields acc.1 acc.2 hwf
      rcases hel : (applyZones f zt
          (classify_zones (fuel + 1) (.obj fields) path)
          fields acc.1 acc.2).1.lookup "elements" with _ | val
      · rfl
      · cases val with
        | arr children =>
          have hwfc : ∀ ic ∈ children.toList.enum, wfJ ic.2 = true := by
            intro ic hic
            obtain ⟨_, hw⟩ := by simpa [wfJ, Bool.and_eq_true] using hwf1
            exact wfJ_of_mem_toList
              (by simpa [wfJ] using wfJ_of_memEntry hw (memEntry_of_lookup hel))
              (snd_mem_of_mem_enumFrom (by simpa [List.enum] using hic))
          have := foldl_compare f zt fuel (fun i => childPath path i)
            (fun el p a a' hw =>
              process_element_compare f zt hout fuel el p a a' hw)
            children.toList.enum hwfc
            ([], ((applyZones f zt
                (classify_zones (fuel + 1) (.obj fields) path)
                fields acc.1 acc.2).2.1,
              (applyZones f zt
                (classify_zones (fuel + 1) (.obj fields) path)
                fields acc.1 acc.2).2.2))
            ([], ((applyZones (onErrorKeep f) zt
                (classify_zones (fuel + 1) (.obj fields) path)
                fields acc'.1 acc'.2).2.1,
              (applyZones (onErrorKeep f) zt
                (classify_zones (fuel + 1) (.obj fields) path)
                fields acc'.1 acc'.2).2.2))
            rfl
          exact congrArg (fun l => J.obj ((applyZones f zt
            (classify_zones (fuel + 1) (.obj fields) path)
            fields acc.1 acc.2).1.set "elements" (J.arr (JArr.ofList l)))) this
        | null => rfl
        | bool b => rfl
        | num n => rfl
        | str s => rfl
        | obj o => rfl
    | null => rfl
    | bool b => rfl
    | num n => rfl
    | str s => rfl
    | arr a => rfl

/-- C3 amended.  For every well-formed tree and every transformer returning
well-formed zone data: a raised exception on any zone is caught — the run
behaves on the data exactly like the run in which each raising invocation
is replaced by the identity on its zone (so the failure aborts neither the
remaining zones of the node nor the remaining nodes).  Every recorded error
is the flat string `"Error transforming zone at {path}: {message}"` (not a
structured `{path, message}` record), arising either from a transformer
raise or from a write-back `TypeError` on a non-dict settings value; in the
identity-patched run no error comes from a transformer raise — only
write-back `TypeError`s remain. -/
theorem transform_error_isolation (fuel : Nat) (data : J)
    (zt : Option (List ZoneType)) (f : Zone → Except String Zone)
    (hwf : wfJ data = true)
    (hout : ∀ z tz, f z = .ok tz → wfJ (.obj tz.data) = true) :
    (transform fuel data zt (some (onErrorKeep f))).data
      = (transform fuel data zt (some f)).data
    ∧ errsProp f (transform fuel data zt (some f)).errors
    ∧ ∀ x ∈ (transform fuel data zt (some (onErrorKeep f))).errors,
        ∃ z msg, x = errorEntry z.path msg ∧
          ∃ tz el, onErrorKeep f z = .ok tz
            ∧ pyEq (.obj tz.data) (.obj z.data) = false
            ∧ (writeBackAll el tz.data).2 = some msg := by
  have herr : ∀ (g : Zone → Except String Zone),
      errsProp g (transform fuel data zt (some g)).errors := by
    intro g
    cases data with
    | arr items =>
      simp only [transform]
      obtain ⟨δm, δe, _, h2, _, h4⟩ :=
        foldl_deltas g zt fuel (fun i => "[" ++ toString i ++ "]")
          (fun el q a => process_element_deltas g zt fuel el q a)
          items.toList.enum ([], ([], []))
      intro x hx
      rw [h2] at hx
      exact h4 x (by simpa using hx)
    | obj fields =>
      simp only [transform]
      obtain ⟨δm, δe, _, h2, _, h4⟩ :=
        process_element_deltas g zt fuel (.obj fields) "" ([], [])
      intro x hx
      rw [h2] at hx
      exact h4 x (by simpa using hx)
    | null => intro x hx; simp [transform] at hx
    | bool b => intro x hx; simp [transform] at hx
    | num n => intro x hx; simp [transform] at hx
    | str s => intro x hx; simp [transform] at hx
  refine ⟨?_, herr f, ?_⟩
  · cases data with
    | arr items =>
      simp only [transform]
      have hl : ∀ ic ∈ items.toList.enum, wfJ ic.2 = true := by
        intro ic hic
        exact wfJ_of_mem_toList (by simpa [wfJ] using hwf)
          (snd_mem_of_mem_enumFrom (by simpa [List.enum] using hic))
      have := foldl_compare f zt fuel (fun i => "[" ++ toString i ++ "]")
        (fun el p a a' hw => process_element_compare f zt hout fuel el p a a' hw)
        items.toList.enum hl ([], ([], [])) ([], ([], [])) rfl
      exact congrArg (fun l => J.arr (JArr.ofList l)) this
    | obj fields =>
      simp only [transform]
      exact process_element_compare f zt hout fuel (.obj fields) ""
        ([], []) ([], []) hwf
    | null => rfl
    | bool b => rfl
    | num n => rfl
    | str s => rfl
  · intro x hx
    obtain ⟨z, msg, hxe, hsrc⟩ := herr (onErrorKeep f) x hx
    rcases hsrc with hraise | hwb
    · exact absurd hraise (onErrorKeep_ne_error f z msg)
    · exact ⟨z, msg, hxe, hwb⟩

/-- C3 amended, witness: the always-raising transformer on the concrete
one-key node. -/
theorem transform_error_isolation_witness :
    (wfJ fooNode = true)
    ∧ ((transform 3 fooNode none (some (onErrorKeep alwaysRaiseFn))).data
        = (transform 3 fooNode none (some alwaysRaiseFn)).data
      ∧ errsProp alwaysRaiseFn
          (transform 3 fooNode none (some alwaysRaiseFn)).errors
      ∧ ∀ x ∈ (transform 3 fooNode none
            (some (onErrorKeep alwaysRaiseFn))).errors,
          ∃ z msg, x = errorEntry z.path msg ∧
            ∃ tz el, onErrorKeep alwaysRaiseFn z = .ok tz
              ∧ pyEq (.obj tz.data) (.obj z.data) = false
              ∧ (writeBackAll el tz.data).2 = some msg) :=
  ⟨by decide,
   transform_error_isolation 3 fooNode none alwaysRaiseFn (by decide)
     (fun z tz h => by simp [alwaysRaiseFn] at h)⟩
